import Mathlib

/-!
Verification of the Huffman compressor in `src/huffman.py`.

The development shallowly embeds the algorithmic core of the program:

* byte sequences are `List Nat` with entries below 256;
* Python `dict`s (insertion ordered) are association lists `List (Nat × α)`
  manipulated only through `setVal` (insert-or-overwrite keeping the
  position of an existing key) and `listLookup` (first match; keys built
  through `setVal` are unique, matching `dict` semantics);
* bit strings of the characters 0 and 1 are `List Bool` (`false` is the
  character 0, `true` is the character 1);
* `heapq` with entries `(freq, contador, no)` is modelled by `popMin`,
  which removes the unique minimum in the lexicographic order on
  `(freq, contador)`; counters are distinct, so this coincides with the
  behaviour of a binary min-heap on those tuples;
* functions that raise exceptions return `Except HuffErro` / `Option`.
-/

/-- The error kinds raised by the Python code (each constructor is one
`ValueError` message of `huffman.py`). -/
inductive HuffErro where
  /-- construir_arvore: "Arquivo vazio: nao ha dados para construir a arvore." -/
  | arquivoVazio
  /-- descompactar_arquivo: "Arquivo .huff invalido ou em formato desconhecido." -/
  | formatoInvalido
  /-- descompactar_arquivo: "Arquivo .huff corrompido (tamanho da tabela)." -/
  | tamanhoTabela
  /-- descompactar_arquivo: "Arquivo .huff corrompido (entrada de tabela)." -/
  | entradaTabela
  /-- descompactar_arquivo: "Arquivo .huff corrompido (padding)." -/
  | paddingCorrompido
  /-- descompactar_arquivo: "Arquivo .huff corrompido (sem dados)." -/
  | semDados
  /-- descompactar_arquivo: "Erro na descompactacao: navegacao invalida na arvore." -/
  | navegacaoInvalida
  /-- compactar: a `KeyError` on `self.codigos[b]` (never reached in practice). -/
  | chaveAusente
deriving DecidableEq, Repr

/-- The tree node `NoHuffman`.  The Python class has fields
`freq`, `simbolo : Optional[int]`, `esquerdo : Optional[NoHuffman]`,
`direito : Optional[NoHuffman]`, but the program only ever constructs
three shapes, which are the three constructors here:

* `leaf simbolo freq` — `NoHuffman(freq=fr, simbolo=b)` (no children);
* `node1 freq esq` — the synthetic single-symbol root
  `NoHuffman(freq=..., esquerdo=unico_no, direito=None)` (no symbol);
* `node2 freq esq dir` — a merge node
  `NoHuffman(freq=f1+f2, esquerdo=no1, direito=no2)` (no symbol). -/
inductive HTree where
  | leaf (simbolo freq : Nat)
  | node1 (freq : Nat) (esq : HTree)
  | node2 (freq : Nat) (esq dir : HTree)
deriving DecidableEq, Repr

namespace HTree

/-- `eh_folha`: the Python test `self.simbolo is not None`. -/
def ehFolha : HTree → Bool
  | .leaf _ _ => true
  | _ => false

/-- The field `freq`. -/
def freqDe : HTree → Nat
  | .leaf _ f => f
  | .node1 f _ => f
  | .node2 f _ _ => f

/-- The field `simbolo` of a leaf (internal nodes carry `None`; the value
0 returned for them is never read, as every use is guarded by `ehFolha`). -/
def simboloDe : HTree → Nat
  | .leaf s _ => s
  | _ => 0

/-- The field `esquerdo` (an optional child pointer). -/
def esquerdoDe : HTree → Option HTree
  | .leaf _ _ => none
  | .node1 _ e => some e
  | .node2 _ e _ => some e

/-- The field `direito` (an optional child pointer). -/
def direitoDe : HTree → Option HTree
  | .leaf _ _ => none
  | .node1 _ _ => none
  | .node2 _ _ d => some d

end HTree

/-- Insert-or-overwrite on an association list: the model of the Python
assignment `d[k] = v` on a `dict` (an existing key keeps its position,
a new key is appended at the end). -/
def setVal {α : Type} : List (Nat × α) → Nat → α → List (Nat × α)
  | [], k, v => [(k, v)]
  | (k2, v2) :: resto, k, v =>
    if k2 = k then (k, v) :: resto else (k2, v2) :: setVal resto k v

/-- First-match lookup: the model of `d.get(k)` / `d[k]` (keys built by
`setVal` are unique, so first match is the dictionary value). -/
def listLookup {α : Type} : List (Nat × α) → Nat → Option α
  | [], _ => none
  | (k2, v2) :: resto, k => if k2 = k then some v2 else listLookup resto k

/-- Rebuild an emission sequence as a dict: `foldl` of `d[k] = v`. -/
def dictify {α : Type} (l : List (Nat × α)) : List (Nat × α) :=
  l.foldl (fun t e => setVal t e.1 e.2) []

/-- `sum(tabela.values())`. -/
def sumVals (l : List (Nat × Nat)) : Nat :=
  (l.map Prod.snd).sum

/-- The keys of an association list, in order. -/
def chaves {α : Type} (l : List (Nat × α)) : List Nat :=
  l.map Prod.fst

/-- `gerar_tabela_frequencia`: `for b in dados: freq[b] = freq.get(b, 0) + 1`. -/
def gerar_tabela_frequencia (dados : List Nat) : List (Nat × Nat) :=
  dados.foldl (fun freq b => setVal freq b ((listLookup freq b).getD 0 + 1)) []

/-- The initial priority-queue build of `construir_arvore`:
`for b, fr in tabela.items(): heappush(heap, (fr, contador, NoHuffman(freq=fr, simbolo=b))); contador += 1`. -/
def filaInicial (contador : Nat) : List (Nat × Nat) → List (Nat × Nat × HTree)
  | [] => []
  | (b, fr) :: resto => (fr, contador, HTree.leaf b fr) :: filaInicial (contador + 1) resto

/-- `heapq.heappop` on entries `(freq, contador, no)`: removes the first
occurrence of the lexicographic minimum of `(freq, contador)`.  Counters
are pairwise distinct in every heap the program builds, so the minimum is
unique and this is exactly the heap's pop. -/
def popMin : List (Nat × Nat × HTree) → Option ((Nat × Nat × HTree) × List (Nat × Nat × HTree))
  | [] => none
  | e :: resto =>
    match popMin resto with
    | none => some (e, [])
    | some (m, resto2) =>
      if e.1 < m.1 ∨ (e.1 = m.1 ∧ e.2.1 ≤ m.2.1) then some (e, resto)
      else some (m, e :: resto2)

/-- The merge loop of `construir_arvore`:
`while len(heap) > 1: pop two minima, push their parent`. The first
argument is fuel bounding the number of iterations; each iteration
shrinks the queue by one entry, so the fuel `heap.length` used by
`construir_arvore` is never exhausted (see `combinaLoop_length`). -/
def combinaLoop : Nat → Nat → List (Nat × Nat × HTree) → List (Nat × Nat × HTree)
  | 0, _, heap => heap
  | fuel + 1, contador, heap =>
    match popMin heap with
    | none => heap
    | some (e1, resto1) =>
      match popMin resto1 with
      | none => heap
      | some (e2, resto2) =>
        combinaLoop fuel (contador + 1)
          ((e1.1 + e2.1, contador, HTree.node2 (e1.1 + e2.1) e1.2.2 e2.2.2) :: resto2)

/-- `construir_arvore`.  An empty table raises (`arquivoVazio`); a
one-entry table yields the synthetic root with an absent right child;
otherwise the merge loop runs until a single entry, the root, remains.
(The final `[]` branch is unreachable: the loop keeps at least one
entry; Python would raise `IndexError` on `heap[0]` there.) -/
def construir_arvore (tabela : List (Nat × Nat)) : Except HuffErro HTree :=
  if tabela.isEmpty then .error .arquivoVazio
  else
    let heap := filaInicial 0 tabela
    match heap with
    | [unico] => .ok (HTree.node1 unico.2.2.freqDe unico.2.2)
    | _ =>
      match combinaLoop heap.length tabela.length heap with
      | raiz :: _ => .ok raiz.2.2
      | [] => .error .arquivoVazio

/-- `_gerar_rec`: root-to-leaf traversal accumulating 0 on a left edge
and 1 on a right edge; a leaf reached with an empty path records the
one-bit code 0.  Children are only descended when present. -/
def gerarRec : HTree → List Bool → List (Nat × List Bool)
  | .leaf s _, caminho => [(s, if caminho = [] then [false] else caminho)]
  | .node1 _ esq, caminho => gerarRec esq (caminho ++ [false])
  | .node2 _ esq dir, caminho =>
    gerarRec esq (caminho ++ [false]) ++ gerarRec dir (caminho ++ [true])

/-- `gerar_codigos`: the emissions of `_gerar_rec` inserted into a dict. -/
def gerar_codigos (raiz : HTree) : List (Nat × List Bool) :=
  dictify (gerarRec raiz [])

/-- `int(byte_str, 2)` for a string of binary digits, most significant first. -/
def bitsToNat (bits : List Bool) : Nat :=
  bits.foldl (fun a b => 2 * a + (if b then 1 else 0)) 0

/-- The byte-grouping loop of `_bits_para_bytes`:
`for i in range(0, len(bits), 8): dados.append(int(bits[i:i+8], 2))`. -/
def bytesDe : List Bool → List Nat
  | [] => []
  | b0 :: b1 :: b2 :: b3 :: b4 :: b5 :: b6 :: b7 :: resto =>
    bitsToNat [b0, b1, b2, b3, b4, b5, b6, b7] :: bytesDe resto
  | resto => [bitsToNat resto]

/-- `_bits_para_bytes`: pad on the right with zero bits to a multiple of
eight, group into bytes; returns `(dados, padding)`. -/
def bits_para_bytes (bits : List Bool) : List Nat × Nat :=
  if bits.length = 0 then ([], 0)
  else
    let padding := (8 - bits.length % 8) % 8
    (bytesDe (bits ++ List.replicate padding false), padding)

/-- `f"{b:08b}"` for a byte `b < 256`: its eight binary digits, most
significant first. -/
def byteParaBits (b : Nat) : List Bool :=
  [b.testBit 7, b.testBit 6, b.testBit 5, b.testBit 4,
   b.testBit 3, b.testBit 2, b.testBit 1, b.testBit 0]

/-- `_bytes_para_bits`: concatenation of the eight digits of every byte. -/
def bytes_para_bits (dados : List Nat) : List Bool :=
  (dados.map byteParaBits).flatten

/-- `n.to_bytes(4, "big")` for `n < 2^32` (big-endian digits base 256). -/
def u32be (n : Nat) : List Nat :=
  [n / 16777216 % 256, n / 65536 % 256, n / 256 % 256, n % 256]

/-- `int.from_bytes(bs, "big")`. -/
def deBytesBE (bs : List Nat) : Nat :=
  bs.foldl (fun a b => 256 * a + b) 0

/-- The bit string of the whole input:
`"".join(self.codigos[b] for b in self.bytes_dados)`; `none` models the
`KeyError` on a byte without a code (never reached in practice). -/
def bitsCodificados (codigos : List (Nat × List Bool)) : List Nat → Option (List Bool)
  | [] => some []
  | b :: resto => do
    let c ← listLookup codigos b
    let r ← bitsCodificados codigos resto
    pure (c ++ r)

/-- `compactar`: build table, tree and codes, encode the input to a bit
string, pack it, and produce the container
`HUF1 | N (u32be) | N × (symbol, freq u32be) | padding | payload`.
On any error nothing is produced (the Python code raises inside
`construir_arvore` before `open(caminho_saida)` runs). -/
def compactar (dados : List Nat) : Except HuffErro (List Nat) :=
  let tabela := gerar_tabela_frequencia dados
  match construir_arvore tabela with
  | .error e => .error e
  | .ok raiz =>
    let codigos := gerar_codigos raiz
    match bitsCodificados codigos dados with
    | none => .error .chaveAusente
    | some bits =>
      let (dadosCodificados, padding) := bits_para_bytes bits
      .ok ([72, 85, 70, 49] ++ u32be tabela.length ++
        (tabela.map fun e => e.1 :: u32be e.2).flatten ++ [padding] ++ dadosCodificados)

/-- The table-entry loop of `descompactar_arquivo`: `n` times, read one
symbol byte and four frequency bytes (error if short) and insert
`tabela_freq[simbolo] = fr`. -/
def parseEntradas : Nat → List (Nat × Nat) → List Nat → Except HuffErro (List (Nat × Nat) × List Nat)
  | 0, tabela, resto => .ok (tabela, resto)
  | n + 1, tabela, resto =>
    match resto with
    | s :: f0 :: f1 :: f2 :: f3 :: resto2 =>
      parseEntradas n (setVal tabela s (deBytesBE [f0, f1, f2, f3])) resto2
    | _ => .error .entradaTabela

/-- The header-reading part of `descompactar_arquivo`: magic, symbol
count, table entries, padding byte; returns the frequency table, the
padding count and the remaining payload bytes. -/
def parseCabecalho (c : List Nat) : Except HuffErro (List (Nat × Nat) × Nat × List Nat) :=
  match c with
  | 72 :: 85 :: 70 :: 49 :: resto =>
    match resto with
    | n0 :: n1 :: n2 :: n3 :: resto2 =>
      match parseEntradas (deBytesBE [n0, n1, n2, n3]) [] resto2 with
      | .error e => .error e
      | .ok (tabela, resto3) =>
        match resto3 with
        | padding :: payload => .ok (tabela, padding, payload)
        | [] => .error .paddingCorrompido
    | _ => .error .tamanhoTabela
  | _ => .error .formatoInvalido

/-- The decoding walk of `descompactar_arquivo`: follow the left child
on bit 0 and the right child on bit 1, error on an absent child, emit
the symbol and restart from the root at each leaf, and stop as soon as
the emitted count reaches `total`; exhausted bits return whatever was
emitted so far. -/
def percorrer (raiz : HTree) (total : Nat) : HTree → List Bool → List Nat → Except HuffErro (List Nat)
  | _, [], resultado => .ok resultado
  | atual, bit :: resto, resultado =>
    match (if bit then atual.direitoDe else atual.esquerdoDe) with
    | none => .error .navegacaoInvalida
    | some prox =>
      if prox.ehFolha then
        let resultado2 := resultado ++ [prox.simboloDe]
        if resultado2.length = total then .ok resultado2
        else percorrer raiz total raiz resto resultado2
      else percorrer raiz total prox resto resultado

/-- `descompactar_arquivo` (the byte-level part: the recovered byte
sequence before the text re-encoding of the calling layer): parse the
header, reject an empty payload with positive declared total, rebuild
the tree from the frequency table, unpack the payload bits, drop the
trailing `padding` bits, and walk the tree. -/
def descompactar_arquivo (c : List Nat) : Except HuffErro (List Nat) :=
  match parseCabecalho c with
  | .error e => .error e
  | .ok (tabela, padding, payload) =>
    if payload.length = 0 ∧ 0 < sumVals tabela then .error .semDados
    else
      match construir_arvore tabela with
      | .error e => .error e
      | .ok raiz =>
        let total := sumVals tabela
        let bits0 := bytes_para_bits payload
        let bits := if 0 < padding then bits0.take (bits0.length - padding) else bits0
        percorrer raiz total raiz bits []

/-- The root-to-leaf paths of a tree (0 = left, 1 = right), a helper for
reasoning about `gerarRec` and `percorrer`. -/
def caminhos : HTree → List (Nat × List Bool)
  | .leaf s _ => [(s, [])]
  | .node1 _ esq => (caminhos esq).map (fun e => (e.1, false :: e.2))
  | .node2 _ esq dir =>
    (caminhos esq).map (fun e => (e.1, false :: e.2)) ++
      (caminhos dir).map (fun e => (e.1, true :: e.2))

/-- A tree in which every internal node has both children (the shape of
every tree the merge loop builds from two or more symbols). -/
def cheia : HTree → Bool
  | .leaf _ _ => true
  | .node1 _ _ => false
  | .node2 _ esq dir => cheia esq && cheia dir

/-! ### Dictionary lemmas -/

/-- One `foldl` step of `dictify`. -/
def passoDict {α : Type} (t : List (Nat × α)) (e : Nat × α) : List (Nat × α) :=
  setVal t e.1 e.2

/-- One `foldl` step of `gerar_tabela_frequencia`. -/
def passoFreq (freq : List (Nat × Nat)) (b : Nat) : List (Nat × Nat) :=
  setVal freq b ((listLookup freq b).getD 0 + 1)

theorem dictify_eq_foldl {α : Type} (l : List (Nat × α)) :
    dictify l = l.foldl passoDict [] := rfl

theorem gtf_eq_foldl (dados : List Nat) :
    gerar_tabela_frequencia dados = dados.foldl passoFreq [] := rfl

theorem lookup_setVal {α : Type} (t : List (Nat × α)) (k : Nat) (v : α) (b : Nat) :
    listLookup (setVal t k v) b = if k = b then some v else listLookup t b := by
  induction t with
  | nil => by_cases h : k = b <;> simp [setVal, listLookup, h]
  | cons e resto ih =>
    obtain ⟨k2, v2⟩ := e
    by_cases h : k2 = k
    · subst h
      by_cases hb : k2 = b <;> simp [setVal, listLookup, hb]
    · by_cases hb : k2 = b
      · subst hb
        have hkb : ¬ k = k2 := fun hh => h hh.symm
        simp [setVal, listLookup, h, hkb]
      · simp [setVal, listLookup, h, hb, ih]

theorem mem_setVal {α : Type} (t : List (Nat × α)) (k : Nat) (v : α)
    (x : Nat × α) (hx : x ∈ setVal t k v) : x ∈ t ∨ x = (k, v) := by
  induction t with
  | nil => simpa [setVal] using hx
  | cons e resto ih =>
    obtain ⟨k2, v2⟩ := e
    by_cases h : k2 = k
    · subst h
      rcases (by simpa [setVal] using hx : x = (k2, v) ∨ x ∈ resto) with h1 | h1
      · exact Or.inr h1
      · exact Or.inl (List.mem_cons_of_mem _ h1)
    · rcases (by simpa [setVal, h] using hx : x = (k2, v2) ∨ x ∈ setVal resto k v) with h1 | h1
      · exact Or.inl (by simp [h1])
      · rcases ih h1 with h2 | h2
        · exact Or.inl (List.mem_cons_of_mem _ h2)
        · exact Or.inr h2

theorem setVal_of_not_mem {α : Type} (t : List (Nat × α)) (k : Nat) (v : α)
    (h : k ∉ chaves t) : setVal t k v = t ++ [(k, v)] := by
  induction t with
  | nil => simp [setVal]
  | cons e resto ih =>
    obtain ⟨k2, v2⟩ := e
    simp only [chaves, List.map_cons, List.mem_cons, not_or] at h
    have h1 : ¬ k2 = k := fun hh => h.1 hh.symm
    simp only [setVal, if_neg h1, List.cons_append, List.cons.injEq, true_and]
    exact ih h.2

theorem chaves_setVal {α : Type} (t : List (Nat × α)) (k : Nat) (v : α) :
    chaves (setVal t k v) = if k ∈ chaves t then chaves t else chaves t ++ [k] := by
  induction t with
  | nil => simp [setVal, chaves]
  | cons e resto ih =>
    obtain ⟨k2, v2⟩ := e
    by_cases h : k2 = k
    · subst h
      simp [setVal, chaves]
    · simp only [setVal, if_neg h, chaves, List.map_cons]
      have hne : ¬ k = k2 := fun hh => h hh.symm
      by_cases h2 : k ∈ chaves resto
      · simp only [chaves] at h2 ih
        simp [List.mem_cons, hne, h2, ih]
      · simp only [chaves] at h2 ih
        simp [List.mem_cons, hne, h2, ih]

theorem nodup_chaves_setVal {α : Type} (t : List (Nat × α)) (k : Nat) (v : α)
    (h : (chaves t).Nodup) : (chaves (setVal t k v)).Nodup := by
  rw [chaves_setVal]
  by_cases hk : k ∈ chaves t
  · rw [if_pos hk]; exact h
  · rw [if_neg hk]
    refine List.Nodup.append h (List.nodup_singleton k) ?_
    intro x hx hx2
    rw [List.mem_singleton] at hx2
    subst hx2
    exact hk hx

theorem listLookup_mem {α : Type} (t : List (Nat × α)) (b : Nat) (v : α)
    (h : listLookup t b = some v) : (b, v) ∈ t := by
  induction t with
  | nil => simp [listLookup] at h
  | cons e resto ih =>
    obtain ⟨k2, v2⟩ := e
    by_cases h2 : k2 = b
    · subst h2
      simp [listLookup] at h
      simp [h]
    · simp only [listLookup, if_neg h2] at h
      exact List.mem_cons_of_mem _ (ih h)

theorem sumVals_passoFreq (t : List (Nat × Nat)) (b : Nat) :
    sumVals (passoFreq t b) = sumVals t + 1 := by
  induction t with
  | nil => simp [passoFreq, setVal, sumVals, listLookup]
  | cons e resto ih =>
    obtain ⟨k2, v2⟩ := e
    by_cases h : k2 = b
    · subst h
      simp [passoFreq, setVal, sumVals, listLookup]
      omega
    · have h2 : passoFreq ((k2, v2) :: resto) b = (k2, v2) :: passoFreq resto b := by
        simp [passoFreq, setVal, listLookup, h]
      rw [h2]
      simp only [sumVals, List.map_cons, List.sum_cons] at ih ⊢
      omega

theorem mem_sumVals_le (t : List (Nat × Nat)) (b fr : Nat) (h : (b, fr) ∈ t) :
    fr ≤ sumVals t := by
  induction t with
  | nil => simp at h
  | cons e resto ih =>
    rcases List.mem_cons.1 h with h1 | h1
    · simp [← h1, sumVals]
    · have := ih h1
      simp only [sumVals, List.map_cons, List.sum_cons]
      simp only [sumVals] at this
      omega

theorem length_setVal {α : Type} (t : List (Nat × α)) (k : Nat) (v : α) :
    (setVal t k v).length ≤ t.length + 1 := by
  induction t with
  | nil => simp [setVal]
  | cons e resto ih =>
    obtain ⟨k2, v2⟩ := e
    by_cases h : k2 = k
    · subst h; simp [setVal]
    · simp only [setVal, if_neg h, List.length_cons]
      omega

theorem mem_chaves_setVal {α : Type} (t : List (Nat × α)) (k : Nat) (v : α)
    (x : Nat) (hx : x ∈ chaves t ∨ x = k) : x ∈ chaves (setVal t k v) := by
  rw [chaves_setVal]
  by_cases hk : k ∈ chaves t
  · rw [if_pos hk]
    rcases hx with h | h
    · exact h
    · exact h ▸ hk
  · rw [if_neg hk]
    rcases hx with h | h
    · exact List.mem_append_left _ h
    · simp [h]

theorem foldl_passoDict_mem {α : Type} :
    ∀ (l acc : List (Nat × α)) (x : Nat × α),
      x ∈ l.foldl passoDict acc → x ∈ acc ∨ x ∈ l := by
  intro l
  induction l with
  | nil => intro acc x hx; exact Or.inl hx
  | cons e resto ih =>
    intro acc x hx
    rcases ih (passoDict acc e) x hx with h | h
    · rcases mem_setVal acc e.1 e.2 x h with h2 | h2
      · exact Or.inl h2
      · exact Or.inr (by simp [h2])
    · exact Or.inr (List.mem_cons_of_mem _ h)

theorem mem_dictify {α : Type} (l : List (Nat × α)) (x : Nat × α)
    (hx : x ∈ dictify l) : x ∈ l := by
  rcases foldl_passoDict_mem l [] x hx with h | h
  · simp at h
  · exact h

theorem foldl_passoDict_lookup {α : Type} :
    ∀ (l acc : List (Nat × α)) (b : Nat),
      (b ∈ chaves l ∨ (listLookup acc b).isSome) →
      (listLookup (l.foldl passoDict acc) b).isSome := by
  intro l
  induction l with
  | nil =>
    intro acc b hb
    rcases hb with h | h
    · simp [chaves] at h
    · exact h
  | cons e resto ih =>
    intro acc b hb
    refine ih (passoDict acc e) b ?_
    by_cases hbe : b ∈ chaves resto
    · exact Or.inl hbe
    · refine Or.inr ?_
      rw [passoDict, lookup_setVal]
      by_cases he : e.1 = b
      · simp [he]
      · rw [if_neg he]
        rcases hb with h | h
        · simp only [chaves, List.map_cons, List.mem_cons] at h
          rcases h with h | h
          · exact absurd h.symm he
          · exact absurd h hbe
        · exact h

theorem lookup_dictify_isSome {α : Type} (l : List (Nat × α)) (b : Nat)
    (hb : b ∈ chaves l) : (listLookup (dictify l) b).isSome := by
  rw [dictify_eq_foldl]
  exact foldl_passoDict_lookup l [] b (Or.inl hb)

theorem foldl_passoDict_eq_append {α : Type} :
    ∀ (l acc : List (Nat × α)), (∀ k ∈ chaves l, k ∉ chaves acc) →
      (chaves l).Nodup → l.foldl passoDict acc = acc ++ l := by
  intro l
  induction l with
  | nil => intro acc _ _; simp
  | cons e resto ih =>
    intro acc hdisj hnodup
    have he : e.1 ∉ chaves acc := hdisj e.1 (by simp [chaves])
    have hstep : passoDict acc e = acc ++ [(e.1, e.2)] := setVal_of_not_mem acc e.1 e.2 he
    simp only [List.foldl_cons, hstep]
    simp only [chaves, List.map_cons, List.nodup_cons] at hnodup
    have hrec := ih (acc ++ [(e.1, e.2)]) ?_ hnodup.2
    · rw [hrec]
      simp
    · intro k hk hmem
      have hmem2 : k ∈ chaves acc ∨ k = e.1 := by
        simpa [chaves] using hmem
      rcases hmem2 with h | h
      · refine hdisj k ?_ h
        simp only [chaves, List.map_cons, List.mem_cons]
        exact Or.inr (show k ∈ List.map Prod.fst resto from hk)
      · subst h
        exact hnodup.1 (show e.1 ∈ List.map Prod.fst resto from hk)

theorem dictify_nodup_eq {α : Type} (l : List (Nat × α))
    (h : (chaves l).Nodup) : dictify l = l := by
  rw [dictify_eq_foldl, foldl_passoDict_eq_append l [] (by simp [chaves]) h]
  simp

/-! ### Frequency-table lemmas -/

theorem foldl_passoFreq_nodup :
    ∀ (dados : List Nat) (acc : List (Nat × Nat)), (chaves acc).Nodup →
      (chaves (dados.foldl passoFreq acc)).Nodup := by
  intro dados
  induction dados with
  | nil => intro acc h; exact h
  | cons b resto ih =>
    intro acc h
    exact ih (passoFreq acc b) (nodup_chaves_setVal _ _ _ h)

theorem gtf_nodup (dados : List Nat) :
    (chaves (gerar_tabela_frequencia dados)).Nodup := by
  rw [gtf_eq_foldl]
  exact foldl_passoFreq_nodup dados [] (by simp [chaves])

theorem foldl_passoFreq_sum :
    ∀ (dados : List Nat) (acc : List (Nat × Nat)),
      sumVals (dados.foldl passoFreq acc) = sumVals acc + dados.length := by
  intro dados
  induction dados with
  | nil => intro acc; simp
  | cons b resto ih =>
    intro acc
    rw [List.foldl_cons, ih (passoFreq acc b), sumVals_passoFreq]
    simp
    omega

theorem gtf_sum (dados : List Nat) :
    sumVals (gerar_tabela_frequencia dados) = dados.length := by
  rw [gtf_eq_foldl, foldl_passoFreq_sum dados []]
  simp [sumVals]

theorem foldl_passoFreq_chaves :
    ∀ (dados : List Nat) (acc : List (Nat × Nat)) (b : Nat),
      (b ∈ dados ∨ b ∈ chaves acc) → b ∈ chaves (dados.foldl passoFreq acc) := by
  intro dados
  induction dados with
  | nil =>
    intro acc b hb
    rcases hb with h | h
    · simp at h
    · exact h
  | cons d resto ih =>
    intro acc b hb
    refine ih (passoFreq acc d) b ?_
    rcases hb with h | h
    · rcases List.mem_cons.1 h with h2 | h2
      · exact Or.inr (mem_chaves_setVal _ _ _ _ (Or.inr h2))
      · exact Or.inl h2
    · exact Or.inr (mem_chaves_setVal _ _ _ _ (Or.inl h))

theorem gtf_chaves (dados : List Nat) (b : Nat) (hb : b ∈ dados) :
    b ∈ chaves (gerar_tabela_frequencia dados) := by
  rw [gtf_eq_foldl]
  exact foldl_passoFreq_chaves dados [] b (Or.inl hb)

theorem foldl_passoFreq_length :
    ∀ (dados : List Nat) (acc : List (Nat × Nat)),
      (dados.foldl passoFreq acc).length ≤ acc.length + dados.length := by
  intro dados
  induction dados with
  | nil => intro acc; simp
  | cons b resto ih =>
    intro acc
    have h1 := ih (passoFreq acc b)
    have h2 := length_setVal acc b ((listLookup acc b).getD 0 + 1)
    simp only [List.foldl_cons, List.length_cons]
    calc (resto.foldl passoFreq (passoFreq acc b)).length
        ≤ (passoFreq acc b).length + resto.length := h1
      _ ≤ acc.length + 1 + resto.length := by
          have : (passoFreq acc b).length ≤ acc.length + 1 := h2
          omega
      _ = acc.length + (resto.length + 1) := by omega

theorem gtf_length (dados : List Nat) :
    (gerar_tabela_frequencia dados).length ≤ dados.length := by
  rw [gtf_eq_foldl]
  simpa using foldl_passoFreq_length dados []

theorem gtf_fr_le (dados : List Nat) (b fr : Nat)
    (h : (b, fr) ∈ gerar_tabela_frequencia dados) : fr ≤ dados.length := by
  have := mem_sumVals_le _ _ _ h
  rwa [gtf_sum] at this

theorem gtf_ne_nil (dados : List Nat) (h : dados ≠ []) :
    gerar_tabela_frequencia dados ≠ [] := by
  obtain ⟨b, resto, rfl⟩ := List.exists_cons_of_ne_nil h
  have := gtf_chaves (b :: resto) b (by simp)
  intro hnil
  rw [hnil] at this
  simp [chaves] at this

/-! ### Priority-queue lemmas -/

theorem popMin_cons_none (a : Nat × Nat × HTree) (resto : List (Nat × Nat × HTree))
    (h2 : popMin resto = none) : popMin (a :: resto) = some (a, []) := by
  simp [popMin, h2]

theorem popMin_cons_true (a m : Nat × Nat × HTree)
    (resto resto2 : List (Nat × Nat × HTree))
    (h2 : popMin resto = some (m, resto2))
    (hc : a.1 < m.1 ∨ (a.1 = m.1 ∧ a.2.1 ≤ m.2.1)) :
    popMin (a :: resto) = some (a, resto) := by
  simp only [popMin, h2]
  rw [if_pos hc]

theorem popMin_cons_false (a m : Nat × Nat × HTree)
    (resto resto2 : List (Nat × Nat × HTree))
    (h2 : popMin resto = some (m, resto2))
    (hc : ¬ (a.1 < m.1 ∨ (a.1 = m.1 ∧ a.2.1 ≤ m.2.1))) :
    popMin (a :: resto) = some (m, a :: resto2) := by
  simp only [popMin, h2]
  rw [if_neg hc]

theorem popMin_none : ∀ (l : List (Nat × Nat × HTree)), popMin l = none ↔ l = [] := by
  intro l
  cases l with
  | nil => simp [popMin]
  | cons a resto =>
    simp only [iff_false, List.cons_ne_nil, iff_false]
    intro h
    cases h2 : popMin resto with
    | none => rw [popMin_cons_none a resto h2] at h; exact Option.noConfusion h
    | some p =>
      obtain ⟨m, resto2⟩ := p
      by_cases hc : a.1 < m.1 ∨ (a.1 = m.1 ∧ a.2.1 ≤ m.2.1)
      · rw [popMin_cons_true a m resto resto2 h2 hc] at h; exact Option.noConfusion h
      · rw [popMin_cons_false a m resto resto2 h2 hc] at h; exact Option.noConfusion h

theorem popMin_isSome (l : List (Nat × Nat × HTree)) (h : l ≠ []) :
    ∃ e r, popMin l = some (e, r) := by
  cases h2 : popMin l with
  | none => exact absurd ((popMin_none l).1 h2) h
  | some p => exact ⟨p.1, p.2, by simp⟩

theorem popMin_length :
    ∀ (l : List (Nat × Nat × HTree)) (e : Nat × Nat × HTree) (r : List (Nat × Nat × HTree)),
      popMin l = some (e, r) → r.length + 1 = l.length := by
  intro l
  induction l with
  | nil => intro e r h; simp [popMin] at h
  | cons a resto ih =>
    intro e r h
    cases h2 : popMin resto with
    | none =>
      have hr : resto = [] := (popMin_none resto).1 h2
      subst hr
      rw [popMin_cons_none a [] h2] at h
      obtain ⟨rfl, rfl⟩ := Prod.mk.inj (Option.some.inj h)
      simp
    | some p =>
      obtain ⟨m, resto2⟩ := p
      have ihm := ih m resto2 h2
      by_cases hc : a.1 < m.1 ∨ (a.1 = m.1 ∧ a.2.1 ≤ m.2.1)
      · rw [popMin_cons_true a m resto resto2 h2 hc] at h
        obtain ⟨rfl, rfl⟩ := Prod.mk.inj (Option.some.inj h)
        simp
      · rw [popMin_cons_false a m resto resto2 h2 hc] at h
        obtain ⟨rfl, rfl⟩ := Prod.mk.inj (Option.some.inj h)
        simp only [List.length_cons] at ihm ⊢
        omega

theorem popMin_mem :
    ∀ (l : List (Nat × Nat × HTree)) (e : Nat × Nat × HTree) (r : List (Nat × Nat × HTree)),
      popMin l = some (e, r) → e ∈ l := by
  intro l
  induction l with
  | nil => intro e r h; simp [popMin] at h
  | cons a resto ih =>
    intro e r h
    cases h2 : popMin resto with
    | none =>
      rw [popMin_cons_none a resto h2] at h
      obtain ⟨rfl, rfl⟩ := Prod.mk.inj (Option.some.inj h)
      exact List.mem_cons_self a resto
    | some p =>
      obtain ⟨m, resto2⟩ := p
      by_cases hc : a.1 < m.1 ∨ (a.1 = m.1 ∧ a.2.1 ≤ m.2.1)
      · rw [popMin_cons_true a m resto resto2 h2 hc] at h
        obtain ⟨rfl, rfl⟩ := Prod.mk.inj (Option.some.inj h)
        exact List.mem_cons_self a resto
      · rw [popMin_cons_false a m resto resto2 h2 hc] at h
        obtain ⟨rfl, rfl⟩ := Prod.mk.inj (Option.some.inj h)
        exact List.mem_cons_of_mem _ (ih m resto2 h2)

theorem popMin_mem_or :
    ∀ (l : List (Nat × Nat × HTree)) (e : Nat × Nat × HTree) (r : List (Nat × Nat × HTree)),
      popMin l = some (e, r) → ∀ x ∈ l, x = e ∨ x ∈ r := by
  intro l
  induction l with
  | nil => intro e r h; simp [popMin] at h
  | cons a resto ih =>
    intro e r h x hx
    cases h2 : popMin resto with
    | none =>
      have hr : resto = [] := (popMin_none resto).1 h2
      subst hr
      rw [popMin_cons_none a [] h2] at h
      obtain ⟨rfl, rfl⟩ := Prod.mk.inj (Option.some.inj h)
      rcases List.mem_cons.1 hx with h5 | h5
      · exact Or.inl h5
      · simp at h5
    | some p =>
      obtain ⟨m, resto2⟩ := p
      by_cases hc : a.1 < m.1 ∨ (a.1 = m.1 ∧ a.2.1 ≤ m.2.1)
      · rw [popMin_cons_true a m resto resto2 h2 hc] at h
        obtain ⟨rfl, rfl⟩ := Prod.mk.inj (Option.some.inj h)
        exact List.mem_cons.1 hx
      · rw [popMin_cons_false a m resto resto2 h2 hc] at h
        obtain ⟨rfl, rfl⟩ := Prod.mk.inj (Option.some.inj h)
        rcases List.mem_cons.1 hx with h5 | h5
        · exact Or.inr (h5 ▸ List.mem_cons_self a resto2)
        · rcases ih m resto2 h2 x h5 with h6 | h6
          · exact Or.inl h6
          · exact Or.inr (List.mem_cons_of_mem _ h6)

theorem popMin_subset :
    ∀ (l : List (Nat × Nat × HTree)) (e : Nat × Nat × HTree) (r : List (Nat × Nat × HTree)),
      popMin l = some (e, r) → ∀ x ∈ r, x ∈ l := by
  intro l
  induction l with
  | nil => intro e r h; simp [popMin] at h
  | cons a resto ih =>
    intro e r h x hx
    cases h2 : popMin resto with
    | none =>
      rw [popMin_cons_none a resto h2] at h
      obtain ⟨rfl, rfl⟩ := Prod.mk.inj (Option.some.inj h)
      simp at hx
    | some p =>
      obtain ⟨m, resto2⟩ := p
      by_cases hc : a.1 < m.1 ∨ (a.1 = m.1 ∧ a.2.1 ≤ m.2.1)
      · rw [popMin_cons_true a m resto resto2 h2 hc] at h
        obtain ⟨rfl, rfl⟩ := Prod.mk.inj (Option.some.inj h)
        exact List.mem_cons_of_mem _ hx
      · rw [popMin_cons_false a m resto resto2 h2 hc] at h
        obtain ⟨rfl, rfl⟩ := Prod.mk.inj (Option.some.inj h)
        rcases List.mem_cons.1 hx with h5 | h5
        · exact h5 ▸ List.mem_cons_self a resto
        · exact List.mem_cons_of_mem _ (ih m resto2 h2 x h5)

theorem combinaLoop_zero (c : Nat) (heap : List (Nat × Nat × HTree)) :
    combinaLoop 0 c heap = heap := rfl

theorem combinaLoop_succ_none (fuel c : Nat) (heap : List (Nat × Nat × HTree))
    (h : popMin heap = none) : combinaLoop (fuel + 1) c heap = heap := by
  simp [combinaLoop, h]

theorem combinaLoop_succ_one (fuel c : Nat) (heap : List (Nat × Nat × HTree))
    (e1 : Nat × Nat × HTree) (r1 : List (Nat × Nat × HTree))
    (h1 : popMin heap = some (e1, r1)) (h2 : popMin r1 = none) :
    combinaLoop (fuel + 1) c heap = heap := by
  simp [combinaLoop, h1, h2]

theorem combinaLoop_succ_merge (fuel c : Nat) (heap : List (Nat × Nat × HTree))
    (e1 e2 : Nat × Nat × HTree) (r1 r2 : List (Nat × Nat × HTree))
    (h1 : popMin heap = some (e1, r1)) (h2 : popMin r1 = some (e2, r2)) :
    combinaLoop (fuel + 1) c heap =
      combinaLoop fuel (c + 1)
        ((e1.1 + e2.1, c, HTree.node2 (e1.1 + e2.1) e1.2.2 e2.2.2) :: r2) := by
  simp [combinaLoop, h1, h2]

theorem popMin_some_ne_nil (l : List (Nat × Nat × HTree)) (e : Nat × Nat × HTree)
    (r : List (Nat × Nat × HTree)) (h : popMin l = some (e, r)) : l ≠ [] := by
  intro hl
  rw [hl] at h
  simp [popMin] at h

theorem combinaLoop_singleton (fuel c : Nat) (e : Nat × Nat × HTree) :
    combinaLoop fuel c [e] = [e] := by
  cases fuel with
  | zero => rfl
  | succ fuel =>
    have h1 : popMin [e] = some (e, []) := popMin_cons_none e [] rfl
    exact combinaLoop_succ_one fuel c [e] e [] h1 rfl

theorem combinaLoop_length :
    ∀ (fuel c : Nat) (heap : List (Nat × Nat × HTree)),
      1 ≤ heap.length → heap.length ≤ fuel + 1 →
      (combinaLoop fuel c heap).length = 1 := by
  intro fuel
  induction fuel with
  | zero =>
    intro c heap h1 h2
    rw [combinaLoop_zero]
    omega
  | succ fuel ih =>
    intro c heap hlen hfuel
    have hne : heap ≠ [] := by
      intro h; rw [h] at hlen; simp at hlen
    obtain ⟨e1, r1, h1⟩ := popMin_isSome heap hne
    have hlen1 := popMin_length heap e1 r1 h1
    cases h2 : popMin r1 with
    | none =>
      have : r1 = [] := (popMin_none r1).1 h2
      rw [combinaLoop_succ_one fuel c heap e1 r1 h1 h2]
      subst this
      simp at hlen1
      omega
    | some p =>
      obtain ⟨e2, r2⟩ := p
      have hlen2 := popMin_length r1 e2 r2 h2
      rw [combinaLoop_succ_merge fuel c heap e1 e2 r1 r2 h1 h2]
      refine ih (c + 1) _ ?_ ?_ <;> simp <;> omega

theorem combinaLoop_all (P : HTree → Prop)
    (hP : ∀ f a b, P a → P b → P (HTree.node2 f a b)) :
    ∀ (fuel c : Nat) (heap : List (Nat × Nat × HTree)),
      (∀ x ∈ heap, P x.2.2) → ∀ x ∈ combinaLoop fuel c heap, P x.2.2 := by
  intro fuel
  induction fuel with
  | zero => intro c heap h x hx; exact h x hx
  | succ fuel ih =>
    intro c heap h x hx
    cases h1 : popMin heap with
    | none =>
      rw [combinaLoop_succ_none fuel c heap h1] at hx
      exact h x hx
    | some p =>
      obtain ⟨e1, r1⟩ := p
      cases h2 : popMin r1 with
      | none =>
        rw [combinaLoop_succ_one fuel c heap e1 r1 h1 h2] at hx
        exact h x hx
      | some q =>
        obtain ⟨e2, r2⟩ := q
        rw [combinaLoop_succ_merge fuel c heap e1 e2 r1 r2 h1 h2] at hx
        refine ih (c + 1) _ ?_ x hx
        intro y hy
        rcases List.mem_cons.1 hy with h3 | h3
        · subst h3
          exact hP _ _ _ (h e1 (popMin_mem heap e1 r1 h1))
            (h e2 (popMin_subset heap e1 r1 h1 e2 (popMin_mem r1 e2 r2 h2)))
        · exact h y (popMin_subset heap e1 r1 h1 y (popMin_subset r1 e2 r2 h2 y h3))

theorem combinaLoop_exists (Q : HTree → Prop)
    (hQ : ∀ f a b, Q a ∨ Q b → Q (HTree.node2 f a b)) :
    ∀ (fuel c : Nat) (heap : List (Nat × Nat × HTree)),
      (∃ x ∈ heap, Q x.2.2) → ∃ x ∈ combinaLoop fuel c heap, Q x.2.2 := by
  intro fuel
  induction fuel with
  | zero => intro c heap h; exact h
  | succ fuel ih =>
    intro c heap h
    cases h1 : popMin heap with
    | none =>
      rw [combinaLoop_succ_none fuel c heap h1]
      exact h
    | some p =>
      obtain ⟨e1, r1⟩ := p
      cases h2 : popMin r1 with
      | none =>
        rw [combinaLoop_succ_one fuel c heap e1 r1 h1 h2]
        exact h
      | some q =>
        obtain ⟨e2, r2⟩ := q
        rw [combinaLoop_succ_merge fuel c heap e1 e2 r1 r2 h1 h2]
        refine ih (c + 1) _ ?_
        obtain ⟨x, hx, hQx⟩ := h
        rcases popMin_mem_or heap e1 r1 h1 x hx with h3 | h3
        · exact ⟨_, List.mem_cons_self _ _, hQ _ _ _ (Or.inl (h3 ▸ hQx))⟩
        · rcases popMin_mem_or r1 e2 r2 h2 x h3 with h4 | h4
          · exact ⟨_, List.mem_cons_self _ _, hQ _ _ _ (Or.inr (h4 ▸ hQx))⟩
          · exact ⟨x, List.mem_cons_of_mem _ h4, hQx⟩

theorem combinaLoop_node2 :
    ∀ (fuel c : Nat) (heap : List (Nat × Nat × HTree)),
      2 ≤ heap.length → heap.length ≤ fuel + 1 →
      ∃ fr cnt f a d, combinaLoop fuel c heap = [(fr, cnt, HTree.node2 f a d)] := by
  intro fuel
  induction fuel with
  | zero =>
    intro c heap h1 h2
    omega
  | succ fuel ih =>
    intro c heap hlen hfuel
    have hne : heap ≠ [] := by
      intro h; rw [h] at hlen; simp at hlen
    obtain ⟨e1, r1, h1⟩ := popMin_isSome heap hne
    have hlen1 := popMin_length heap e1 r1 h1
    have hr1ne : r1 ≠ [] := by
      intro h
      rw [h] at hlen1
      simp at hlen1
      omega
    obtain ⟨e2, r2, h2⟩ := popMin_isSome r1 hr1ne
    have hlen2 := popMin_length r1 e2 r2 h2
    rw [combinaLoop_succ_merge fuel c heap e1 e2 r1 r2 h1 h2]
    cases r2 with
    | nil =>
      refine ⟨e1.1 + e2.1, c, e1.1 + e2.1, e1.2.2, e2.2.2, ?_⟩
      exact combinaLoop_singleton fuel (c + 1) _
    | cons a r3 =>
      refine ih (c + 1) _ ?_ ?_ <;> simp <;> simp at hlen1 hlen2 <;> omega

/-! ### Tree-construction lemmas -/

theorem filaInicial_length :
    ∀ (t : List (Nat × Nat)) (c : Nat), (filaInicial c t).length = t.length := by
  intro t
  induction t with
  | nil => intro c; rfl
  | cons e resto ih =>
    intro c
    obtain ⟨b, fr⟩ := e
    simp [filaInicial, ih]

theorem filaInicial_trees :
    ∀ (t : List (Nat × Nat)) (c : Nat) (x : Nat × Nat × HTree),
      x ∈ filaInicial c t → ∃ b fr, x.2.2 = HTree.leaf b fr := by
  intro t
  induction t with
  | nil => intro c x hx; simp [filaInicial] at hx
  | cons e resto ih =>
    intro c x hx
    obtain ⟨b, fr⟩ := e
    rcases List.mem_cons.1 hx with h | h
    · exact ⟨b, fr, by simp [h]⟩
    · exact ih (c + 1) x h

theorem filaInicial_mem_key :
    ∀ (t : List (Nat × Nat)) (c b fr : Nat), (b, fr) ∈ t →
      ∃ cnt, (fr, cnt, HTree.leaf b fr) ∈ filaInicial c t := by
  intro t
  induction t with
  | nil => intro c b fr h; simp at h
  | cons e resto ih =>
    intro c b fr h
    obtain ⟨b2, fr2⟩ := e
    rcases List.mem_cons.1 h with h2 | h2
    · obtain ⟨rfl, rfl⟩ := Prod.mk.inj h2
      exact ⟨c, List.mem_cons_self _ _⟩
    · obtain ⟨cnt, hcnt⟩ := ih (c + 1) b fr h2
      exact ⟨cnt, List.mem_cons_of_mem _ hcnt⟩

theorem chaves_caminhos_node2 (f : Nat) (a d : HTree) :
    chaves (caminhos (HTree.node2 f a d)) =
      chaves (caminhos a) ++ chaves (caminhos d) := by
  have h1 : (Prod.fst ∘ fun e : Nat × List Bool => (e.1, false :: e.2)) = Prod.fst :=
    funext fun e => rfl
  have h2 : (Prod.fst ∘ fun e : Nat × List Bool => (e.1, true :: e.2)) = Prod.fst :=
    funext fun e => rfl
  simp only [caminhos, chaves, List.map_append, List.map_map, h1, h2]

theorem chaves_caminhos_node1 (f : Nat) (a : HTree) :
    chaves (caminhos (HTree.node1 f a)) = chaves (caminhos a) := by
  have h1 : (Prod.fst ∘ fun e : Nat × List Bool => (e.1, false :: e.2)) = Prod.fst :=
    funext fun e => rfl
  simp only [caminhos, chaves, List.map_map, h1]

theorem cheia_node2 (f : Nat) (a d : HTree) :
    cheia (HTree.node2 f a d) = (cheia a && cheia d) := rfl

/-- The two-or-more-symbols case of `construir_arvore` unfolded to its
merge-loop form. -/
theorem construir_arvore_cons2 (b fr b2 fr2 : Nat) (t2 : List (Nat × Nat)) :
    construir_arvore ((b, fr) :: (b2, fr2) :: t2) =
      (match combinaLoop (filaInicial 0 ((b, fr) :: (b2, fr2) :: t2)).length
          ((b, fr) :: (b2, fr2) :: t2).length
          (filaInicial 0 ((b, fr) :: (b2, fr2) :: t2)) with
        | raiz :: _ => .ok raiz.2.2
        | [] => .error .arquivoVazio) := rfl

/-- The one-symbol case of `construir_arvore`: the synthetic root. -/
theorem construir_arvore_um (b fr : Nat) :
    construir_arvore [(b, fr)] = .ok (HTree.node1 fr (HTree.leaf b fr)) := rfl

/-- Structure of every successfully built tree: `construir_arvore`
succeeds on a non-empty table, the root is internal, every key of the
table occurs among the leaf symbols of the tree, and with two or more
entries the tree is full. -/
theorem construir_arvore_ok (tabela : List (Nat × Nat)) (h : tabela ≠ []) :
    ∃ raiz, construir_arvore tabela = .ok raiz ∧ raiz.ehFolha = false ∧
      (∀ k, k ∈ chaves tabela → k ∈ chaves (caminhos raiz)) ∧
      (2 ≤ tabela.length → cheia raiz = true) := by
  cases tabela with
  | nil => exact absurd rfl h
  | cons e t =>
    obtain ⟨b, fr⟩ := e
    cases t with
    | nil =>
      refine ⟨HTree.node1 fr (HTree.leaf b fr), construir_arvore_um b fr, rfl, ?_, ?_⟩
      · intro k hk
        simp only [chaves, List.map_cons, List.map_nil, List.mem_singleton] at hk
        subst hk
        simp [caminhos, chaves]
      · intro h2
        simp at h2
    | cons e2 t2 =>
      obtain ⟨b2, fr2⟩ := e2
      set tabela := (b, fr) :: (b2, fr2) :: t2 with htab
      set heap := filaInicial 0 tabela with hheap
      have hheaplen : heap.length = tabela.length := filaInicial_length tabela 0
      have hlen2 : 2 ≤ heap.length := by
        rw [hheaplen, htab]
        simp
      obtain ⟨fr3, cnt, f, a, d, hcomb⟩ :=
        combinaLoop_node2 heap.length tabela.length heap hlen2 (by omega)
      refine ⟨HTree.node2 f a d, ?_, rfl, ?_, ?_⟩
      · rw [htab, construir_arvore_cons2, ← htab, ← hheap, hcomb]
      · intro k hk
        have hk2 : ∃ frx, (k, frx) ∈ tabela := by
          simp only [chaves, List.mem_map] at hk
          obtain ⟨⟨k2, frx⟩, hmem, hfst⟩ := hk
          exact ⟨frx, by simpa [← hfst] using hmem⟩
        obtain ⟨frx, hmem⟩ := hk2
        obtain ⟨cnt2, hcnt2⟩ := filaInicial_mem_key tabela 0 k frx hmem
        have hexist := combinaLoop_exists (fun tr => k ∈ chaves (caminhos tr))
          (by
            intro f2 a2 b3 hab
            rw [chaves_caminhos_node2]
            rcases hab with h1 | h1
            · exact List.mem_append_left _ h1
            · exact List.mem_append_right _ h1)
          heap.length tabela.length heap
          ⟨(frx, cnt2, HTree.leaf k frx), hcnt2, by simp [caminhos, chaves]⟩
        rw [hcomb] at hexist
        obtain ⟨x, hx, hkx⟩ := hexist
        rw [List.mem_singleton] at hx
        subst hx
        exact hkx
      · intro _
        have hall := combinaLoop_all (fun tr => cheia tr = true)
          (by intro f2 a2 b3 h1 h2; simp [cheia, h1, h2])
          heap.length tabela.length heap
          (by
            intro x hx
            obtain ⟨bx, frx, hxe⟩ := filaInicial_trees tabela 0 x hx
            rw [hxe]
            rfl)
        rw [hcomb] at hall
        exact hall (fr3, cnt, HTree.node2 f a d) (List.mem_singleton.2 rfl)

/-! ### Code-table lemmas -/

theorem gerarRec_caminhos :
    ∀ (t : HTree) (p : List Bool), t.ehFolha = false ∨ p ≠ [] →
      gerarRec t p = (caminhos t).map (fun e => (e.1, p ++ e.2)) := by
  intro t
  induction t with
  | leaf s f =>
    intro p hp
    rcases hp with h | h
    · simp [HTree.ehFolha] at h
    · simp [gerarRec, caminhos, if_neg h]
  | node1 f esq ih =>
    intro p _
    rw [gerarRec, ih (p ++ [false]) (Or.inr (by simp)), caminhos, List.map_map]
    apply List.map_congr_left
    intro x _
    simp [Function.comp]
  | node2 f esq dir ih1 ih2 =>
    intro p _
    rw [gerarRec, ih1 (p ++ [false]) (Or.inr (by simp)),
      ih2 (p ++ [true]) (Or.inr (by simp)), caminhos, List.map_append,
      List.map_map, List.map_map]
    congr 1
    · apply List.map_congr_left
      intro x _
      simp [Function.comp]
    · apply List.map_congr_left
      intro x _
      simp [Function.comp]

/-- For an internal root, the raw emissions of `_gerar_rec` are exactly
the root-to-leaf paths. -/
theorem gerarRec_raiz (t : HTree) (h : t.ehFolha = false) :
    gerarRec t [] = caminhos t := by
  rw [gerarRec_caminhos t [] (Or.inl h)]
  simp

/-- Every path in an internal tree is non-empty. -/
theorem caminhos_ne_nil (t : HTree) (h : t.ehFolha = false) :
    ∀ s c, (s, c) ∈ caminhos t → c ≠ [] := by
  intro s c hc
  cases t with
  | leaf s2 f => simp [HTree.ehFolha] at h
  | node1 f esq =>
    simp only [caminhos, List.mem_map] at hc
    obtain ⟨x, _, hx⟩ := hc
    intro hnil
    rw [← (Prod.mk.inj hx).2] at hnil
    exact List.noConfusion hnil
  | node2 f esq dir =>
    simp only [caminhos, List.mem_append, List.mem_map] at hc
    rcases hc with ⟨x, _, hx⟩ | ⟨x, _, hx⟩ <;>
    · intro hnil
      rw [← (Prod.mk.inj hx).2] at hnil
      exact List.noConfusion hnil

/-- In a full tree the root-to-leaf paths are pairwise prefix-free. -/
theorem caminhos_pairwise :
    ∀ (t : HTree), cheia t = true →
      (caminhos t).Pairwise
        (fun a b => ¬ a.2 <+: b.2 ∧ ¬ b.2 <+: a.2) := by
  intro t
  induction t with
  | leaf s f => intro _; simp [caminhos]
  | node1 f esq ih => intro h; simp [cheia] at h
  | node2 f esq dir ih1 ih2 =>
    intro h
    rw [cheia_node2, Bool.and_eq_true] at h
    rw [caminhos, List.pairwise_append]
    refine ⟨?_, ?_, ?_⟩
    · rw [List.pairwise_map]
      refine (ih1 h.1).imp ?_
      intro a b hab
      constructor
      · intro hpre
        rw [List.cons_prefix_cons] at hpre
        exact hab.1 hpre.2
      · intro hpre
        rw [List.cons_prefix_cons] at hpre
        exact hab.2 hpre.2
    · rw [List.pairwise_map]
      refine (ih2 h.2).imp ?_
      intro a b hab
      constructor
      · intro hpre
        rw [List.cons_prefix_cons] at hpre
        exact hab.1 hpre.2
      · intro hpre
        rw [List.cons_prefix_cons] at hpre
        exact hab.2 hpre.2
    · intro a ha b hb
      rw [List.mem_map] at ha hb
      obtain ⟨x, _, hx⟩ := ha
      obtain ⟨y, _, hy⟩ := hb
      constructor
      · intro hpre
        rw [← hx, ← hy] at hpre
        rw [List.cons_prefix_cons] at hpre
        exact Bool.noConfusion hpre.1
      · intro hpre
        rw [← hx, ← hy] at hpre
        rw [List.cons_prefix_cons] at hpre
        exact Bool.noConfusion hpre.1

/-! ### Decoding-walk lemmas -/

/-- The continuation of one step of `percorrer` after moving to `prox`. -/
def aposPasso (raiz : HTree) (total : Nat) (prox : HTree) (bits : List Bool)
    (acc : List Nat) : Except HuffErro (List Nat) :=
  if prox.ehFolha then
    if (acc ++ [prox.simboloDe]).length = total then .ok (acc ++ [prox.simboloDe])
    else percorrer raiz total raiz bits (acc ++ [prox.simboloDe])
  else percorrer raiz total prox bits acc

theorem percorrer_passo (raiz : HTree) (total : Nat) (atual prox : HTree)
    (bit : Bool) (bits : List Bool) (acc : List Nat)
    (hstep : (if bit then atual.direitoDe else atual.esquerdoDe) = some prox) :
    percorrer raiz total atual (bit :: bits) acc = aposPasso raiz total prox bits acc := by
  simp [percorrer, hstep, aposPasso]

theorem aposPasso_caminho (raiz : HTree) (total : Nat) :
    ∀ (t : HTree) (s : Nat) (c : List Bool), (s, c) ∈ caminhos t →
      ∀ (resto : List Bool) (acc : List Nat),
        aposPasso raiz total t (c ++ resto) acc =
          if acc.length + 1 = total then .ok (acc ++ [s])
          else percorrer raiz total raiz resto (acc ++ [s]) := by
  intro t
  induction t with
  | leaf s2 f =>
    intro s c hc resto acc
    simp only [caminhos, List.mem_singleton] at hc
    obtain ⟨rfl, rfl⟩ := Prod.mk.inj hc
    simp [aposPasso, HTree.ehFolha, HTree.simboloDe]
  | node1 f esq ih =>
    intro s c hc resto acc
    simp only [caminhos, List.mem_map] at hc
    obtain ⟨⟨s2, c2⟩, hmem, hx⟩ := hc
    obtain ⟨rfl, rfl⟩ := Prod.mk.inj hx
    rw [show aposPasso raiz total (HTree.node1 f esq) ((false :: c2) ++ resto) acc =
        percorrer raiz total (HTree.node1 f esq) (false :: (c2 ++ resto)) acc from rfl,
      percorrer_passo raiz total _ esq false _ acc (by simp [HTree.esquerdoDe])]
    exact ih s2 c2 hmem resto acc
  | node2 f esq dir ih1 ih2 =>
    intro s c hc resto acc
    simp only [caminhos, List.mem_append, List.mem_map] at hc
    rcases hc with ⟨⟨s2, c2⟩, hmem, hx⟩ | ⟨⟨s2, c2⟩, hmem, hx⟩
    · obtain ⟨rfl, rfl⟩ := Prod.mk.inj hx
      rw [show aposPasso raiz total (HTree.node2 f esq dir) ((false :: c2) ++ resto) acc =
          percorrer raiz total (HTree.node2 f esq dir) (false :: (c2 ++ resto)) acc from rfl,
        percorrer_passo raiz total _ esq false _ acc (by simp [HTree.esquerdoDe])]
      exact ih1 s2 c2 hmem resto acc
    · obtain ⟨rfl, rfl⟩ := Prod.mk.inj hx
      rw [show aposPasso raiz total (HTree.node2 f esq dir) ((true :: c2) ++ resto) acc =
          percorrer raiz total (HTree.node2 f esq dir) (true :: (c2 ++ resto)) acc from rfl,
        percorrer_passo raiz total _ dir true _ acc (by simp [HTree.direitoDe])]
      exact ih2 s2 c2 hmem resto acc

/-- Walking one full code from the root emits exactly its symbol. -/
theorem percorrer_caminho (raiz : HTree) (hraiz : raiz.ehFolha = false)
    (total : Nat) (s : Nat) (c : List Bool) (hc : (s, c) ∈ caminhos raiz)
    (resto : List Bool) (acc : List Nat) :
    percorrer raiz total raiz (c ++ resto) acc =
      if acc.length + 1 = total then .ok (acc ++ [s])
      else percorrer raiz total raiz resto (acc ++ [s]) := by
  rw [← aposPasso_caminho raiz total raiz s c hc resto acc]
  rw [aposPasso, if_neg (by simp [hraiz])]

theorem bitsCodificados_cons (codigos : List (Nat × List Bool)) (b : Nat)
    (ds : List Nat) (bits : List Bool)
    (h : bitsCodificados codigos (b :: ds) = some bits) :
    ∃ c r, listLookup codigos b = some c ∧ bitsCodificados codigos ds = some r ∧
      bits = c ++ r := by
  cases hc : listLookup codigos b with
  | none => rw [bitsCodificados, hc] at h; simp at h
  | some c =>
    cases hr : bitsCodificados codigos ds with
    | none => rw [bitsCodificados, hc, hr] at h; simp at h
    | some r =>
      rw [bitsCodificados, hc, hr] at h
      exact ⟨c, r, rfl, rfl, (Option.some.inj h).symm⟩

theorem bitsCodificados_isSome (codigos : List (Nat × List Bool)) :
    ∀ (dados : List Nat), (∀ b ∈ dados, (listLookup codigos b).isSome) →
      ∃ bits, bitsCodificados codigos dados = some bits := by
  intro dados
  induction dados with
  | nil => intro _; exact ⟨[], rfl⟩
  | cons b ds ih =>
    intro h
    obtain ⟨c, hc⟩ := Option.isSome_iff_exists.1 (h b (List.mem_cons_self _ _))
    obtain ⟨r, hr⟩ := ih (fun x hx => h x (List.mem_cons_of_mem _ hx))
    exact ⟨c ++ r, by rw [bitsCodificados, hc, hr]; rfl⟩

/-- Decoding the encoded bit string of `dados` restores `dados`. -/
theorem percorrer_codigos (raiz : HTree) (hraiz : raiz.ehFolha = false)
    (codigos : List (Nat × List Bool))
    (H : ∀ b c, listLookup codigos b = some c → (b, c) ∈ caminhos raiz) :
    ∀ (dados acc : List Nat) (bits : List Bool) (total : Nat),
      dados ≠ [] → acc.length + dados.length = total →
      bitsCodificados codigos dados = some bits →
      percorrer raiz total raiz bits acc = .ok (acc ++ dados) := by
  intro dados
  induction dados with
  | nil => intro acc bits total h; exact absurd rfl h
  | cons b ds ih =>
    intro acc bits total _ hlen hbits
    obtain ⟨c, r, hc, hr, rfl⟩ := bitsCodificados_cons codigos b ds bits hbits
    rw [percorrer_caminho raiz hraiz total b c (H b c hc) r acc]
    cases ds with
    | nil =>
      have hr0 : r = [] := by
        rw [bitsCodificados] at hr
        exact (Option.some.inj hr).symm
      have : acc.length + 1 = total := by simpa using hlen
      rw [if_pos this]
    | cons d ds2 =>
      have hne : ¬ (acc.length + 1 = total) := by
        simp only [List.length_cons] at hlen
        omega
      rw [if_neg hne]
      have := ih (acc ++ [b]) r total (List.cons_ne_nil d ds2)
        (by simp only [List.length_append, List.length_cons, List.length_nil] at hlen ⊢; omega) hr
      rw [this]
      simp

/-! ### Bit-packing lemmas -/

theorem byteParaBits_octet (b0 b1 b2 b3 b4 b5 b6 b7 : Bool) :
    byteParaBits (bitsToNat [b0, b1, b2, b3, b4, b5, b6, b7]) =
      [b0, b1, b2, b3, b4, b5, b6, b7] := by
  cases b0 <;> cases b1 <;> cases b2 <;> cases b3 <;> cases b4 <;> cases b5 <;>
    cases b6 <;> cases b7 <;> decide

theorem nao_octeto_curto (l : List Bool)
    (h : ∀ (b0 b1 b2 b3 b4 b5 b6 b7 : Bool) (resto : List Bool),
      l = b0 :: b1 :: b2 :: b3 :: b4 :: b5 :: b6 :: b7 :: resto → False) :
    l.length < 8 := by
  match l with
  | [] => simp
  | [_] => simp
  | [_, _] => simp
  | [_, _, _] => simp
  | [_, _, _, _] => simp
  | [_, _, _, _, _] => simp
  | [_, _, _, _, _, _] => simp
  | [_, _, _, _, _, _, _] => simp
  | b0 :: b1 :: b2 :: b3 :: b4 :: b5 :: b6 :: b7 :: resto =>
    exact (h b0 b1 b2 b3 b4 b5 b6 b7 resto rfl).elim

/-- Unpacking inverts byte grouping on any bit string whose length is a
multiple of eight. -/
theorem bytes_para_bits_bytesDe (l : List Bool) (h : l.length % 8 = 0) :
    bytes_para_bits (bytesDe l) = l := by
  induction l using bytesDe.induct with
  | case1 => simp [bytesDe, bytes_para_bits]
  | case2 b0 b1 b2 b3 b4 b5 b6 b7 resto ih =>
    have hlen : resto.length % 8 = 0 := by
      simp only [List.length_cons] at h
      omega
    rw [show bytesDe (b0 :: b1 :: b2 :: b3 :: b4 :: b5 :: b6 :: b7 :: resto) =
        bitsToNat [b0, b1, b2, b3, b4, b5, b6, b7] :: bytesDe resto from rfl]
    rw [show bytes_para_bits (bitsToNat [b0, b1, b2, b3, b4, b5, b6, b7] :: bytesDe resto) =
        byteParaBits (bitsToNat [b0, b1, b2, b3, b4, b5, b6, b7]) ++
          bytes_para_bits (bytesDe resto) from by simp [bytes_para_bits]]
    rw [byteParaBits_octet, ih hlen]
    rfl
  | case3 resto h1 h2 =>
    have hlt : resto.length < 8 := nao_octeto_curto resto h2
    have hne : resto.length ≠ 0 := by
      intro h0
      exact h1 (List.length_eq_zero.1 h0)
    omega

theorem bits_para_bytes_nil : bits_para_bytes [] = ([], 0) := rfl

/-- The padding count produced by packing. -/
theorem bits_para_bytes_snd (bits : List Bool) :
    (bits_para_bytes bits).2 = (8 - bits.length % 8) % 8 := by
  by_cases h : bits.length = 0
  · rw [List.length_eq_zero.1 h]
    rfl
  · rw [bits_para_bytes, if_neg h]

theorem bits_para_bytes_padding_le (bits : List Bool) :
    (bits_para_bytes bits).2 ≤ 7 := by
  rw [bits_para_bytes_snd]
  omega

theorem bits_para_bytes_mul8 (bits : List Bool) :
    (bits.length + (bits_para_bytes bits).2) % 8 = 0 := by
  rw [bits_para_bytes_snd]
  omega

/-- Unpacking the packed bytes restores the bit string plus its zero
padding. -/
theorem bytes_para_bits_fst (bits : List Bool) :
    bytes_para_bits (bits_para_bytes bits).1 =
      bits ++ List.replicate (bits_para_bytes bits).2 false := by
  by_cases h : bits.length = 0
  · rw [List.length_eq_zero.1 h]
    rfl
  · rw [bits_para_bytes, if_neg h]
    have hlen : (bits ++ List.replicate ((8 - bits.length % 8) % 8) false).length % 8 = 0 := by
      simp only [List.length_append, List.length_replicate]
      omega
    exact bytes_para_bits_bytesDe _ hlen

/-- Dropping the trailing padding bits of the unpacked payload restores
the original bit string. -/
theorem bytes_para_bits_take (bits : List Bool) :
    (bytes_para_bits (bits_para_bytes bits).1).take
      ((bytes_para_bits (bits_para_bytes bits).1).length - (bits_para_bytes bits).2) =
      bits := by
  rw [bytes_para_bits_fst]
  have h1 : (bits ++ List.replicate (bits_para_bytes bits).2 false).length -
      (bits_para_bytes bits).2 = bits.length := by
    simp only [List.length_append, List.length_replicate]
    omega
  rw [h1]
  exact List.take_left bits _

theorem bits_para_bytes_fst_ne_nil (bits : List Bool) (h : bits ≠ []) :
    (bits_para_bytes bits).1 ≠ [] := by
  intro hnil
  have := bytes_para_bits_fst bits
  rw [hnil] at this
  have h2 : bytes_para_bits [] = [] := rfl
  rw [h2] at this
  have h3 : bits.length = 0 := by
    have := congrArg List.length this
    simp only [List.length_nil, List.length_append, List.length_replicate] at this
    omega
  exact h (List.length_eq_zero.1 h3)

/-! ### Container-serialization lemmas -/

theorem u32be_cons (n : Nat) (l : List Nat) :
    u32be n ++ l =
      n / 16777216 % 256 :: n / 65536 % 256 :: n / 256 % 256 :: n % 256 :: l := rfl

theorem u32be_round_expandido (n : Nat) (h : n < 4294967296) :
    deBytesBE [n / 16777216 % 256, n / 65536 % 256, n / 256 % 256, n % 256] = n := by
  simp only [deBytesBE, List.foldl_cons, List.foldl_nil]
  omega

/-- `int.from_bytes` inverts `to_bytes(4, "big")` below `2^32`. -/
theorem u32be_round (n : Nat) (h : n < 4294967296) : deBytesBE (u32be n) = n :=
  u32be_round_expandido n h

theorem magic_cons (l : List Nat) :
    ([72, 85, 70, 49] : List Nat) ++ l = 72 :: 85 :: 70 :: 49 :: l := rfl

theorem parseEntradas_cons (n : Nat) (tabela : List (Nat × Nat))
    (s f0 f1 f2 f3 : Nat) (resto2 : List Nat) :
    parseEntradas (n + 1) tabela (s :: f0 :: f1 :: f2 :: f3 :: resto2) =
      parseEntradas n (setVal tabela s (deBytesBE [f0, f1, f2, f3])) resto2 := rfl

theorem parseCabecalho_explicito (n0 n1 n2 n3 : Nat) (resto2 : List Nat) :
    parseCabecalho (72 :: 85 :: 70 :: 49 :: n0 :: n1 :: n2 :: n3 :: resto2) =
      (match parseEntradas (deBytesBE [n0, n1, n2, n3]) [] resto2 with
       | .error e => .error e
       | .ok (tabela, resto3) =>
         match resto3 with
         | padding :: payload => .ok (tabela, padding, payload)
         | [] => .error .paddingCorrompido) := rfl

/-- Reading back the serialized table entries restores the dictionary
built from them and leaves the remaining stream untouched. -/
theorem parseEntradas_append :
    ∀ (tab acc : List (Nat × Nat)) (resto : List Nat),
      (∀ e ∈ tab, e.2 < 4294967296) →
      parseEntradas tab.length acc
        ((tab.map fun e => e.1 :: u32be e.2).flatten ++ resto) =
        .ok (tab.foldl (fun t e => setVal t e.1 e.2) acc, resto) := by
  intro tab
  induction tab with
  | nil => intro acc resto _; rfl
  | cons e t ih =>
    intro acc resto hfr
    obtain ⟨b, fr⟩ := e
    have hfr1 : fr < 4294967296 := by
      simpa using hfr (b, fr) (List.mem_cons_self _ _)
    simp only [List.map_cons, List.flatten_cons, List.cons_append, List.append_assoc,
      List.length_cons]
    rw [u32be_cons, parseEntradas_cons, u32be_round_expandido fr hfr1]
    rw [ih (setVal acc b fr) resto (fun x hx => hfr x (List.mem_cons_of_mem _ hx))]
    rfl

/-- Parsing a container serialized from a table recovers the table (as
re-inserted through the dict), the padding byte and the payload. -/
theorem parseCabecalho_serializado (tab : List (Nat × Nat)) (padByte : Nat)
    (payload : List Nat) (hn : tab.length < 4294967296)
    (hfr : ∀ e ∈ tab, e.2 < 4294967296) :
    parseCabecalho ([72, 85, 70, 49] ++ u32be tab.length ++
        (tab.map fun e => e.1 :: u32be e.2).flatten ++ [padByte] ++ payload) =
      .ok (tab.foldl (fun t e => setVal t e.1 e.2) [], padByte, payload) := by
  simp only [List.append_assoc]
  rw [magic_cons, u32be_cons, parseCabecalho_explicito,
    u32be_round_expandido tab.length hn]
  rw [show ([padByte] ++ payload : List Nat) = padByte :: payload from rfl]
  rw [parseEntradas_append tab [] (padByte :: payload) hfr]

/-! ### End-to-end lemmas -/

/-- Everything `compactar` does on a non-empty input: the tree builds,
every input byte has a code, the code lookups land in the tree paths,
the encoded bit string is non-empty, and the output container has the
documented layout. -/
theorem compactar_spec (dados : List Nat) (h1 : dados ≠ []) :
    ∃ raiz bits,
      construir_arvore (gerar_tabela_frequencia dados) = .ok raiz ∧
      raiz.ehFolha = false ∧
      (∀ b c, listLookup (gerar_codigos raiz) b = some c → (b, c) ∈ caminhos raiz) ∧
      bitsCodificados (gerar_codigos raiz) dados = some bits ∧
      bits ≠ [] ∧
      compactar dados = .ok ([72, 85, 70, 49] ++
        u32be (gerar_tabela_frequencia dados).length ++
        ((gerar_tabela_frequencia dados).map fun e => e.1 :: u32be e.2).flatten ++
        [(bits_para_bytes bits).2] ++ (bits_para_bytes bits).1) := by
  have htne : gerar_tabela_frequencia dados ≠ [] := gtf_ne_nil dados h1
  obtain ⟨raiz, hraiz, hfolha, hkeys, _⟩ :=
    construir_arvore_ok (gerar_tabela_frequencia dados) htne
  have hrec : gerarRec raiz [] = caminhos raiz := gerarRec_raiz raiz hfolha
  have hlookup_mem : ∀ b c, listLookup (gerar_codigos raiz) b = some c →
      (b, c) ∈ caminhos raiz := by
    intro b c hb
    have hmem : (b, c) ∈ dictify (gerarRec raiz []) := listLookup_mem _ _ _ hb
    have hmem2 := mem_dictify _ _ hmem
    rwa [hrec] at hmem2
  have hsome : ∀ b ∈ dados, (listLookup (gerar_codigos raiz) b).isSome := by
    intro b hb
    refine lookup_dictify_isSome (gerarRec raiz []) b ?_
    rw [hrec]
    exact hkeys b (gtf_chaves dados b hb)
  obtain ⟨bits, hbits⟩ := bitsCodificados_isSome (gerar_codigos raiz) dados hsome
  have hbne : bits ≠ [] := by
    obtain ⟨b, ds, rfl⟩ := List.exists_cons_of_ne_nil h1
    obtain ⟨c, r, hc, hr, rfl⟩ := bitsCodificados_cons _ b ds bits hbits
    have hcne : c ≠ [] := caminhos_ne_nil raiz hfolha b c (hlookup_mem b c hc)
    simp [hcne]
  refine ⟨raiz, bits, hraiz, hfolha, hlookup_mem, hbits, hbne, ?_⟩
  rcases hbp : bits_para_bytes bits with ⟨payload, pad⟩
  unfold compactar
  dsimp only
  rw [hraiz]
  dsimp only
  rw [hbits]
  dsimp only
  rw [hbp]

/-- Full round trip: on a non-empty input whose length fits the 4-byte
frequency fields, `compactar` succeeds, the decoder parses back exactly
the encoder's frequency table, rebuilds the tree from it, and the tree
walk returns the original byte sequence. -/
theorem compactar_descompactar (dados : List Nat) (h1 : dados ≠ [])
    (h3 : dados.length < 4294967296) :
    ∃ c raiz pad payload,
      compactar dados = .ok c ∧
      construir_arvore (gerar_tabela_frequencia dados) = .ok raiz ∧
      parseCabecalho c = .ok (gerar_tabela_frequencia dados, pad, payload) ∧
      descompactar_arquivo c = .ok dados := by
  obtain ⟨raiz, bits, hraiz, hfolha, hlookup, hbits, hbne, hcomp⟩ := compactar_spec dados h1
  have hn : (gerar_tabela_frequencia dados).length < 4294967296 :=
    lt_of_le_of_lt (gtf_length dados) h3
  have hfr : ∀ e ∈ gerar_tabela_frequencia dados, e.2 < 4294967296 := by
    intro e he
    obtain ⟨b, fr⟩ := e
    exact lt_of_le_of_lt (gtf_fr_le dados b fr he) h3
  have hparse0 := parseCabecalho_serializado (gerar_tabela_frequencia dados)
    (bits_para_bytes bits).2 (bits_para_bytes bits).1 hn hfr
  have hfold : (gerar_tabela_frequencia dados).foldl (fun t e => setVal t e.1 e.2) [] =
      gerar_tabela_frequencia dados := by
    rw [show (gerar_tabela_frequencia dados).foldl (fun t e => setVal t e.1 e.2) [] =
      dictify (gerar_tabela_frequencia dados) from rfl]
    exact dictify_nodup_eq _ (gtf_nodup dados)
  rw [hfold] at hparse0
  have hpay : (bits_para_bytes bits).1 ≠ [] := bits_para_bytes_fst_ne_nil bits hbne
  refine ⟨_, raiz, (bits_para_bytes bits).2, (bits_para_bytes bits).1, hcomp, hraiz,
    hparse0, ?_⟩
  unfold descompactar_arquivo
  rw [hparse0]
  dsimp only
  rw [if_neg (by intro hand; exact hpay (List.length_eq_zero.1 hand.1))]
  rw [hraiz]
  dsimp only
  have hbits_eq : (if 0 < (bits_para_bytes bits).2 then
      (bytes_para_bits (bits_para_bytes bits).1).take
        ((bytes_para_bits (bits_para_bytes bits).1).length - (bits_para_bytes bits).2)
      else bytes_para_bits (bits_para_bytes bits).1) = bits := by
    by_cases hp : 0 < (bits_para_bytes bits).2
    · rw [if_pos hp]
      exact bytes_para_bits_take bits
    · rw [if_neg hp]
      have hp0 : (bits_para_bytes bits).2 = 0 := by omega
      rw [bytes_para_bits_fst, hp0]
      simp
  rw [hbits_eq, gtf_sum dados]
  exact percorrer_codigos raiz hfolha (gerar_codigos raiz) hlookup dados [] bits
    dados.length h1 (by simp) hbits

/-! ### Claim theorems -/

/-- C1: for every non-empty byte sequence, decoding the container
produced by encoding it yields exactly the original sequence: the byte
sequence reconstructed by the tree walk in `descompactar_arquivo` equals
the input of `compactar`.  (The length bound reflects the container's
4-byte frequency fields, which `int.to_bytes(4, ...)` enforces.) -/
theorem roundtrip_exato (dados : List Nat) (h1 : dados ≠ [])
    (h2 : ∀ b ∈ dados, b < 256) (h3 : dados.length < 4294967296) :
    ∃ c, compactar dados = .ok c ∧ descompactar_arquivo c = .ok dados := by
  obtain ⟨c, raiz, pad, payload, hc, _, _, hd⟩ := compactar_descompactar dados h1 h3
  exact ⟨c, hc, hd⟩

theorem roundtrip_exato_witness :
    ∃ c, compactar [97, 97, 97, 98] = .ok c ∧
      descompactar_arquivo c = .ok [97, 97, 97, 98] :=
  roundtrip_exato [97, 97, 97, 98] (by decide) (by decide) (by decide)

/-- C2: encoding the empty byte sequence fails with the empty-input
error and produces no container bytes at all (the Python code raises
inside `construir_arvore` before `open(caminho_saida, "wb")` runs, so
nothing is ever written). -/
theorem compactar_entrada_vazia : compactar [] = .error .arquivoVazio := rfl

/-- C3: a frequency table with exactly one distinct symbol produces the
synthetic internal root whose left child is the sole leaf and whose
right child is absent, and the code table maps the symbol to the
one-bit code 0 (never the empty string). -/
theorem arvore_simbolo_unico (s fr : Nat) :
    construir_arvore [(s, fr)] = .ok (HTree.node1 fr (HTree.leaf s fr)) ∧
    gerar_codigos (HTree.node1 fr (HTree.leaf s fr)) = [(s, [false])] :=
  ⟨rfl, rfl⟩

/-- C4: packing pads on the right with zero bits to a multiple of eight
(padding count between 0 and 7), packs the empty string to empty bytes
with padding 0, and unpacking followed by dropping the trailing padding
bits restores the original bit string. -/
theorem empacotar_desempacotar (bits : List Bool) :
    bits_para_bytes ([] : List Bool) = ([], 0) ∧
    (bits_para_bytes bits).2 = (8 - bits.length % 8) % 8 ∧
    (bits_para_bytes bits).2 ≤ 7 ∧
    (bits.length + (bits_para_bytes bits).2) % 8 = 0 ∧
    bytes_para_bits (bits_para_bytes bits).1 =
      bits ++ List.replicate (bits_para_bytes bits).2 false ∧
    (bytes_para_bits (bits_para_bytes bits).1).take
      ((bytes_para_bits (bits_para_bytes bits).1).length - (bits_para_bytes bits).2) =
      bits :=
  ⟨bits_para_bytes_nil, bits_para_bytes_snd bits, bits_para_bytes_padding_le bits,
    bits_para_bytes_mul8 bits, bytes_para_bits_fst bits, bytes_para_bits_take bits⟩

/-- C5: on every non-empty input the produced container is exactly the
magic "HUF1", the distinct-symbol count as 4 big-endian bytes, one
(symbol byte, 4-byte big-endian frequency) entry per table item in the
table's iteration order, one padding byte, and the packed payload. -/
theorem compactar_formato (dados : List Nat) (h1 : dados ≠ []) :
    ∃ raiz bits,
      construir_arvore (gerar_tabela_frequencia dados) = .ok raiz ∧
      bitsCodificados (gerar_codigos raiz) dados = some bits ∧
      compactar dados = .ok ([72, 85, 70, 49] ++
        u32be (gerar_tabela_frequencia dados).length ++
        ((gerar_tabela_frequencia dados).map fun e => e.1 :: u32be e.2).flatten ++
        [(bits_para_bytes bits).2] ++ (bits_para_bytes bits).1) := by
  obtain ⟨raiz, bits, hraiz, _, _, hbits, _, hcomp⟩ := compactar_spec dados h1
  exact ⟨raiz, bits, hraiz, hbits, hcomp⟩

theorem compactar_formato_witness :
    ∃ raiz bits,
      construir_arvore (gerar_tabela_frequencia [97, 98]) = .ok raiz ∧
      bitsCodificados (gerar_codigos raiz) [97, 98] = some bits ∧
      compactar [97, 98] = .ok ([72, 85, 70, 49] ++
        u32be (gerar_tabela_frequencia [97, 98]).length ++
        ((gerar_tabela_frequencia [97, 98]).map fun e => e.1 :: u32be e.2).flatten ++
        [(bits_para_bytes bits).2] ++ (bits_para_bytes bits).1) :=
  compactar_formato [97, 98] (by decide)

/-- C6: the container written by `compactar` parses back to exactly the
frequency table that was used to encode (same entries in the same
order), and `construir_arvore` — a pure function of that table, with
the monotone counter as its deterministic tie-break — succeeds on it;
decode therefore rebuilds the identical tree and identical code
assignments as the encoder. -/
theorem arvore_deterministica (dados : List Nat) (h1 : dados ≠ [])
    (h3 : dados.length < 4294967296) :
    ∃ c pad payload raiz,
      compactar dados = .ok c ∧
      parseCabecalho c = .ok (gerar_tabela_frequencia dados, pad, payload) ∧
      construir_arvore (gerar_tabela_frequencia dados) = .ok raiz := by
  obtain ⟨c, raiz, pad, payload, hc, hraiz, hparse, _⟩ :=
    compactar_descompactar dados h1 h3
  exact ⟨c, pad, payload, raiz, hc, hparse, hraiz⟩

theorem arvore_deterministica_witness :
    ∃ c pad payload raiz,
      compactar [97, 98] = .ok c ∧
      parseCabecalho c = .ok (gerar_tabela_frequencia [97, 98], pad, payload) ∧
      construir_arvore (gerar_tabela_frequencia [97, 98]) = .ok raiz :=
  arvore_deterministica [97, 98] (by decide) (by decide)

/-- C7: with at least two distinct symbols the derived code table is a
prefix code: the codes of two different symbols are never prefixes of
one another. -/
theorem codigos_sem_prefixo (tabela : List (Nat × Nat)) (hlen : 2 ≤ tabela.length)
    (raiz : HTree) (hraiz : construir_arvore tabela = .ok raiz)
    (s1 s2 : Nat) (c1 c2 : List Bool)
    (m1 : (s1, c1) ∈ gerar_codigos raiz) (m2 : (s2, c2) ∈ gerar_codigos raiz)
    (hs : s1 ≠ s2) : ¬ c1 <+: c2 := by
  have htne : tabela ≠ [] := by
    intro h
    rw [h] at hlen
    simp at hlen
  obtain ⟨raiz2, hraiz2, hfolha, _, hcheia⟩ := construir_arvore_ok tabela htne
  rw [hraiz] at hraiz2
  obtain rfl : raiz = raiz2 := Except.ok.inj hraiz2
  have hfull : cheia raiz = true := hcheia hlen
  have hm1 : (s1, c1) ∈ caminhos raiz := by
    have h := mem_dictify _ _ m1
    rwa [gerarRec_raiz raiz hfolha] at h
  have hm2 : (s2, c2) ∈ caminhos raiz := by
    have h := mem_dictify _ _ m2
    rwa [gerarRec_raiz raiz hfolha] at h
  have hsym : Symmetric (fun a b : Nat × List Bool => ¬ a.2 <+: b.2 ∧ ¬ b.2 <+: a.2) :=
    fun a b hab => ⟨hab.2, hab.1⟩
  have hne : (s1, c1) ≠ (s2, c2) := fun h => hs (Prod.mk.inj h).1
  exact ((caminhos_pairwise raiz hfull).forall hsym hm1 hm2 hne).1

theorem codigos_sem_prefixo_witness :
    construir_arvore [(97, 3), (98, 1)] =
        .ok (HTree.node2 4 (HTree.leaf 98 1) (HTree.leaf 97 3)) ∧
      ¬ ([true] : List Bool) <+: [false] :=
  ⟨rfl, codigos_sem_prefixo [(97, 3), (98, 1)] (by decide) _ rfl 97 98 [true] [false]
    (by decide) (by decide) (by decide)⟩

/-- C8: a container whose header parses but whose payload is empty
while the frequency table it carries sums to a positive total fails
with the missing-data (Corrupt) error and emits no output. -/
theorem descompactar_sem_dados (c : List Nat) (tab : List (Nat × Nat)) (pad : Nat)
    (hparse : parseCabecalho c = .ok (tab, pad, []))
    (hsum : 0 < sumVals tab) :
    descompactar_arquivo c = .error .semDados := by
  unfold descompactar_arquivo
  rw [hparse]
  dsimp only
  rw [if_pos ⟨rfl, hsum⟩]

theorem descompactar_sem_dados_witness :
    parseCabecalho ([72, 85, 70, 49] ++ u32be 1 ++ [65, 0, 0, 0, 1] ++ [0]) =
        .ok ([(65, 1)], 0, []) ∧
      descompactar_arquivo ([72, 85, 70, 49] ++ u32be 1 ++ [65, 0, 0, 0, 1] ++ [0]) =
        .error .semDados :=
  ⟨rfl, descompactar_sem_dados _ [(65, 1)] 0 rfl (by decide)⟩

/-- C9 counterexample: a container identical to a valid one for the
four bytes "aabb" except that its padding byte holds 9 (greater than
7).  Decode does not fail: it trims all eight payload bits away and
returns successfully with empty output. -/
theorem padding_grande_contraexemplo :
    descompactar_arquivo [72, 85, 70, 49, 0, 0, 0, 2, 97, 0, 0, 0, 2,
      98, 0, 0, 0, 2, 9, 48] = .ok [] := rfl

/-- C9 amended: the decoder performs no validation of the padding byte;
with a padding value `p` it simply drops the final `min(p, total)` bits
of the unpacked payload and walks whatever remains, so any `p ≥ 8` on
this one-payload-byte container makes decode succeed with truncated
(here empty) output instead of failing. -/
theorem padding_grande_comporta (p : Nat) (hp : 8 ≤ p) :
    descompactar_arquivo ([72, 85, 70, 49] ++ [0, 0, 0, 2] ++ [97, 0, 0, 0, 2] ++
      [98, 0, 0, 0, 2] ++ [p] ++ [48]) = .ok [] := by
  have hparse : parseCabecalho ([72, 85, 70, 49] ++ [0, 0, 0, 2] ++ [97, 0, 0, 0, 2] ++
      [98, 0, 0, 0, 2] ++ [p] ++ [48]) = .ok ([(97, 2), (98, 2)], p, [48]) :=
    parseCabecalho_serializado [(97, 2), (98, 2)] p [48] (by decide) (by decide)
  unfold descompactar_arquivo
  rw [hparse]
  dsimp only
  rw [if_neg (by simp)]
  rw [show construir_arvore [(97, 2), (98, 2)] =
      .ok (HTree.node2 4 (HTree.leaf 97 2) (HTree.leaf 98 2)) from rfl]
  dsimp only
  rw [if_pos (by omega : 0 < p)]
  have htake : (bytes_para_bits [48]).take ((bytes_para_bits [48]).length - p) = [] := by
    have hlen : (bytes_para_bits [48]).length = 8 := rfl
    rw [hlen, show 8 - p = 0 from by omega, List.take_zero]
  rw [htake]
  rfl

theorem padding_grande_comporta_witness :
    descompactar_arquivo ([72, 85, 70, 49] ++ [0, 0, 0, 2] ++ [97, 0, 0, 0, 2] ++
      [98, 0, 0, 0, 2] ++ [9] ++ [48]) = .ok [] :=
  padding_grande_comporta 9 (by decide)

/-- C10 (amended part): decoding a well-formed container that declares
zero symbols (empty table, empty payload) fails inside
`construir_arvore` with the empty-input error instead of returning the
empty byte sequence — for every value of its padding byte. -/
theorem descompactar_n_zero (pad : Nat) :
    descompactar_arquivo [72, 85, 70, 49, 0, 0, 0, 0, pad] = .error .arquivoVazio := by
  have hparse : parseCabecalho [72, 85, 70, 49, 0, 0, 0, 0, pad] = .ok ([], pad, []) := rfl
  unfold descompactar_arquivo
  rw [hparse]
  dsimp only
  rw [if_neg (by simp [sumVals])]
  rfl

/-- C10 counterexample to its universal gloss "decode never produces
empty output": a well-formed container declaring one symbol with
frequency zero and an empty payload decodes successfully to the empty
byte sequence. -/
theorem saida_vazia_contraexemplo :
    descompactar_arquivo [72, 85, 70, 49, 0, 0, 0, 1, 5, 0, 0, 0, 0, 0] = .ok [] := rfl
